import Mathlib

/-!
Verification of the supermarket voice-assistant navigation engine
(`src/main.py`, class `SupermercadoComAssistente`).

The definitions below are a shallow embedding of the Python source:

* `Grid`, `inBounds`, `livre` — the map data (`largura`, `altura`,
  `prateleiras`) and the cell validity checks used by `mover_para`;
* `ajustarDestino` — the goal-substitution scan of `mover_para`
  (lines 229–245): when the requested product cell is a shelf, the first
  free in-bounds neighbour in the fixed order down, up, right, left;
* `passo` / `bfsAux` / `bfs` — the breadth-first search of `mover_para`
  (lines 247–277), with the queue holding `(cell, prefix-path)` entries
  exactly as the Python deque does; the fuel argument only bounds the
  (provably sufficient) number of loop iterations;
* `direcaoDe` / `encode` — the per-transition voice-direction selection
  of `mover_para` (lines 279–303) plus the terminal arrival cue;
* `mover_para` — the end-to-end outcome of the Python coroutine: result
  kind, final position, and the ordered list of spoken cues;
* `acaoIteracao` — one iteration of the `executar_assistente` loop
  (lines 313–329): exit-word check, then first-match product scan,
  then the retry / silent fallthrough;
* `esperaReproducao` — the playback-busy polling loop of
  `sintetizar_voz` (lines 169–170);
* `removerArquivoSeguro` / `varreduraFechamento` — the temp-file
  deletion of `_remover_arquivo_seguro` (lines 176–190) and the
  shutdown sweep of `on_closing` (lines 82–85);
* `EstadoAudio` / `PassoAudio` — an interleaving semantics for the
  `audio_lock` discipline of `sintetizar_voz` (lines 152–174), with the
  lock modelled as the FIFO waiter queue that `asyncio.Lock` documents,
  and with the `except` degrade path (lines 173–174) by which a call
  whose synthesis or playback raises leaves the locked block without
  ever playing.
-/

set_option maxHeartbeats 1000000

namespace AcessoPlus

/-- A map cell, the integer pair `(x, y)` of the Python code. -/
abbrev Cell := ℤ × ℤ

/-- The static map data of `SupermercadoComAssistente`: width `largura`,
height `altura`, and the shelf/obstacle set `prateleiras`. -/
structure Grid where
  largura : ℤ
  altura : ℤ
  prateleiras : Finset Cell

/-- The bounds check `0 <= x < largura and 0 <= y < altura` used by
`mover_para` both for the goal-substitution scan and for BFS neighbours. -/
def inBounds (g : Grid) (c : Cell) : Prop :=
  0 ≤ c.1 ∧ c.1 < g.largura ∧ 0 ≤ c.2 ∧ c.2 < g.altura

instance (g : Grid) (c : Cell) : Decidable (inBounds g c) := by
  unfold inBounds; infer_instance

/-- A cell the user may step onto: in bounds and not a shelf. -/
def livre (g : Grid) (c : Cell) : Prop :=
  inBounds g c ∧ c ∉ g.prateleiras

instance (g : Grid) (c : Cell) : Decidable (livre g c) := by
  unfold livre; infer_instance

/-- The fixed neighbour-offset order `[(0, 1), (0, -1), (1, 0), (-1, 0)]`
used both by the goal-substitution scan (line 235) and by the BFS move
loop (line 261): down, up, right, left in the canvas frame where `y`
grows downward. -/
def moves : List Cell := [(0, 1), (0, -1), (1, 0), (-1, 0)]

/-- The four neighbour candidates of a cell, in the fixed scan order. -/
def adjacentes (c : Cell) : List Cell :=
  moves.map (fun d => (c.1 + d.1, c.2 + d.2))

/-- Goal substitution of `mover_para` (lines 229–245): if the requested
destination is a shelf, the effective BFS goal is the first in-bounds,
non-shelf neighbour in the fixed scan order; `none` means the Python
code speaks the no-accessible-cell apology and returns before any BFS. -/
def ajustarDestino (g : Grid) (destino : Cell) : Option Cell :=
  if destino ∈ g.prateleiras then
    (adjacentes destino).find? (fun c => decide (livre g c))
  else some destino

/-- One BFS queue entry: the dequeued cell together with the list of
cells strictly before it on its path (the Python `caminho_percorrido`). -/
abbrev Entrada := Cell × List Cell

/-- The inner neighbour loop of the BFS (lines 263–273): for each offset
in `ds`, enqueue the neighbour if it is in bounds, not a shelf and not
yet visited, marking it visited at enqueue time. -/
def passo (g : Grid) (c : Cell) (p : List Cell) :
    List Cell → List Entrada × Finset Cell → List Entrada × Finset Cell
  | [], qv => qv
  | d :: ds, (q, v) =>
    let w : Cell := (c.1 + d.1, c.2 + d.2)
    if livre g w ∧ w ∉ v then
      passo g c p ds (q ++ [(w, p ++ [c])], insert w v)
    else
      passo g c p ds (q, v)

/-- The BFS loop of `mover_para` (lines 253–273): pop the front entry,
stop when it is the goal, otherwise enqueue the fresh valid neighbours.
The fuel argument only caps the number of iterations; `bfsAux_mede` and
the completeness theorem show the cap chosen in `bfs` is never hit
before the queue empties. -/
def bfsAux (g : Grid) (goal : Cell) :
    ℕ → List Entrada → Finset Cell → Option (List Cell)
  | 0, _, _ => none
  | _ + 1, [], _ => none
  | fuel + 1, (c, p) :: rest, v =>
    if c = goal then some (p ++ [c])
    else
      let qv := passo g c p moves (rest, v)
      bfsAux g goal fuel qv.1 qv.2

/-- Iteration cap for the BFS: strictly more than the largest possible
queue-plus-unvisited measure (see `bfsAux_mede`). -/
def fuelDe (g : Grid) : ℕ :=
  2 * (g.largura.toNat * g.altura.toNat + 1)

/-- The full BFS of `mover_para` (lines 248–273): initial queue holds
`(start, [])`, and `start` is pre-marked visited. -/
def bfs (g : Grid) (start goal : Cell) : Option (List Cell) :=
  bfsAux g goal (fuelDe g) [(start, [])] {start}

/-- Manhattan distance `|dx| + |dy|` between two cells. -/
def manhattan (a b : Cell) : ℕ :=
  (a.1 - b.1).natAbs + (a.2 - b.2).natAbs

/-- 4-adjacency: Manhattan distance exactly 1. -/
def Adj (a b : Cell) : Prop := manhattan a b = 1

instance (a b : Cell) : Decidable (Adj a b) := by
  unfold Adj; infer_instance

/-- The five voice instructions of the guidance loop. -/
inductive Instr
  | direita
  | esquerda
  | frente
  | voltar
  | chegou
deriving DecidableEq

/-- The per-transition direction selection of `mover_para`
(lines 285–294): x compared first, then y; equal cells yield no cue. -/
def direcaoDe (pc : Cell × Cell) : Option Instr :=
  if pc.1.1 < pc.2.1 then some .direita
  else if pc.2.1 < pc.1.1 then some .esquerda
  else if pc.1.2 < pc.2.2 then some .frente
  else if pc.2.2 < pc.1.2 then some .voltar
  else none

/-- The instruction sequence spoken while following a path
(lines 280–303): one direction per consecutive pair where the cells
differ, then the terminal arrival cue. -/
def encode (p : List Cell) : List Instr :=
  (p.zip p.tail).filterMap direcaoDe ++ [Instr.chegou]

/-- The world-frame delta-to-instruction table as the specification
states it: `+x ↦ Right`, `−x ↦ Left`, `+y ↦ Forward`, `−y ↦ Back`. -/
def instrDelta (d : Cell) : Option Instr :=
  if d = (1, 0) then some .direita
  else if d = (-1, 0) then some .esquerda
  else if d = (0, 1) then some .frente
  else if d = (0, -1) then some .voltar
  else none

/-- Outcome kind of one `mover_para` call. -/
inductive Resultado
  | semAcesso
  | semCaminho
  | movido (caminho : List Cell)
deriving DecidableEq

/-- The spoken phrases a `mover_para` call can produce, in order. -/
inductive Fala
  | semAcesso
  | semCaminho
  | instrucao (i : Instr)
  | chegada
deriving DecidableEq

/-- Observable outcome of one `mover_para` call: result kind, the user
position after the call, and the ordered spoken cues. -/
structure Saida where
  resultado : Resultado
  posicao : Cell
  falas : List Fala
deriving DecidableEq

/-- End-to-end model of the `mover_para` coroutine (lines 221–303):
goal substitution, then BFS, then the step loop that speaks one
direction per transition, moves the position marker to each path cell
in turn, and finally speaks the arrival cue.  On either failure the
apology is spoken and the position is left unchanged. -/
def mover_para (g : Grid) (pos destino : Cell) : Saida :=
  match ajustarDestino g destino with
  | none => ⟨.semAcesso, pos, [.semAcesso]⟩
  | some fd =>
    match bfs g pos fd with
    | none => ⟨.semCaminho, pos, [.semCaminho]⟩
    | some p =>
      ⟨.movido p, p.getLastD pos,
        ((p.zip p.tail).filterMap direcaoDe).map .instrucao ++ [.chegada]⟩

/-- Python's substring test `sub in s`, on phrases as character lists:
`ehPrefixo` is the anchored comparison, `contemSub` scans every suffix. -/
def ehPrefixo : List Char → List Char → Bool
  | [], _ => true
  | _ :: _, [] => false
  | a :: as, b :: bs => a == b && ehPrefixo as bs

/-- Substring containment (`"sair" in comando`, `produto_nome in comando`). -/
def contemSub (sub : List Char) : List Char → Bool
  | [] => ehPrefixo sub []
  | c :: resto => ehPrefixo sub (c :: resto) || contemSub sub resto

/-- What one iteration of the `executar_assistente` loop does with the
recognized phrase. -/
inductive Acao
  | sair
  | guiar (nome : List Char) (alvo : Cell)
  | aviso
  | silencio
deriving DecidableEq

/-- The exit word `"sair"` (line 315). -/
def sairLista : List Char := "sair".toList

/-- One iteration of the `executar_assistente` loop (lines 313–329):
the exit word is checked first; otherwise the first configured product
whose name is a substring of the phrase triggers guidance; otherwise a
nonempty phrase gets the retry cue (`aviso`) and an empty phrase falls
through silently (`silencio`), looping back to listening either way. -/
def acaoIteracao (produtos : List (List Char × Cell)) (comando : List Char) : Acao :=
  if contemSub sairLista comando then .sair
  else
    match produtos.find? (fun pr => contemSub pr.1 comando) with
    | some pr => .guiar pr.1 pr.2
    | none => if comando.isEmpty then .silencio else .aviso

/-- The playback-busy polling loop of `sintetizar_voz` (lines 169–170):
poll `ocupado` starting at tick `t`; return the tick at which playback
first reported idle, or `none` if that never happens within `fuel`
polls.  The Python loop has no fuel: it polls forever. -/
def esperaReproducao (ocupado : ℕ → Bool) : ℕ → ℕ → Option ℕ
  | _, 0 => none
  | t, fuel + 1 => if ocupado t then esperaReproducao ocupado (t + 1) fuel else some t

/-- Observable outcome of `_remover_arquivo_seguro` for one artifact. -/
structure Remocao where
  removido : Bool
  tentativas : ℕ
  rastreado : Bool
deriving DecidableEq

/-- `_remover_arquivo_seguro` (lines 176–190): after the grace delay,
if the file exists a single `os.remove` is attempted (`falha 0` tells
whether that one attempt raises); on success the file leaves the
tracking set, on failure the error is printed and the file stays
tracked.  No second attempt is ever made. -/
def removerArquivoSeguro (existe : Bool) (falha : ℕ → Bool) : Remocao :=
  if existe then
    if falha 0 then ⟨false, 1, true⟩ else ⟨true, 1, false⟩
  else ⟨false, 0, true⟩

/-- Whether a deletion policy that may try `m` times (as the claim
describes) would get the file removed, for the same per-attempt
failure behaviour. -/
def conseguiriaComTentativas (falha : ℕ → Bool) (m : ℕ) : Bool :=
  (List.range m).any fun k => !falha k

/-- The shutdown sweep of `on_closing` (lines 82–85): every tracked
temp file still on disk is removed; returns the files left on disk. -/
def varreduraFechamento (disco temp : Finset ℕ) : Finset ℕ :=
  disco \ temp

/-- The shelf layout built by `adicionar_prateleiras` (lines 96–104):
columns `range(2, 16, 3)`, rows `range(1, 14)`. -/
def prateleirasReais : Finset Cell :=
  ({2, 5, 8, 11, 14} : Finset ℤ) ×ˢ Finset.Icc 1 13

/-- The concrete 18×15 store map of the program. -/
def mapaReal : Grid := ⟨18, 15, prateleirasReais⟩

/-- The product table of the program (lines 34–45), in insertion order,
which is the order the `executar_assistente` match loop scans. -/
def produtosReais : List (List Char × Cell) :=
  [("arroz".toList, (2, 2)), ("feijao".toList, (2, 3)),
   ("oleo".toList, (5, 2)), ("leite".toList, (2, 10)),
   ("achocolatado".toList, (2, 11)), ("cafe".toList, (5, 10)),
   ("pao".toList, (11, 12)), ("queijo".toList, (11, 13)),
   ("manteiga".toList, (14, 12))]

/-- A valid route of the BFS graph: `Rota g s p c` states that `p ++ [c]`
is a path from `s` to `c` in which consecutive cells are 4-adjacent and
every cell except possibly the first (`s`, the user's current position,
never re-checked by the Python code) is in bounds and shelf-free.  The
snoc constructor mirrors how the BFS extends `caminho_percorrido`. -/
inductive Rota (g : Grid) (s : Cell) : List Cell → Cell → Prop
  | nil : Rota g s [] s
  | snoc {p : List Cell} {c d : Cell} :
      Rota g s p c → Adj c d → livre g d → Rota g s (p ++ [c]) d

/-- The finite set of in-bounds cells, used only to measure BFS progress. -/
def celulas (g : Grid) : Finset Cell :=
  Finset.Icc 0 (g.largura - 1) ×ˢ Finset.Icc 0 (g.altura - 1)

/-- The BFS loop invariant, over the queue `Q` and visited set `V`:
every entry is a valid route from the start with minimal length, queue
entries are sorted by path length and span at most two consecutive
lengths, entry cells are visited and pairwise distinct, every visited
cell no longer in the queue already has all its valid neighbours
visited, the start is visited, and the goal has never been dequeued. -/
structure Inv (g : Grid) (s goal : Cell) (Q : List Entrada) (V : Finset Cell) : Prop where
  sound : ∀ e ∈ Q, Rota g s e.2 e.1
  minimal : ∀ e ∈ Q, ∀ r, Rota g s r e.1 → e.2.length ≤ r.length
  sorted : Q.Pairwise (fun e1 e2 => e1.2.length ≤ e2.2.length)
  span : ∀ e ∈ Q, ∀ f, Q.head? = some f → e.2.length ≤ f.2.length + 1
  subV : ∀ e ∈ Q, e.1 ∈ V
  semRepete : (Q.map Prod.fst).Nodup
  fecho : ∀ x ∈ V, x ∉ Q.map Prod.fst → ∀ w, Adj x w → livre g w → w ∈ V
  inicioMem : s ∈ V
  goalQ : goal ∈ V → goal ∈ Q.map Prod.fst

/-- Phase of one `sintetizar_voz` call (lines 152–174): idle, waiting on
`audio_lock`, synthesising (`communicate.save`), playing
(`pygame.mixer.music.play` until idle), deleting the temp file, done. -/
inductive FaseTarefa
  | inativa
  | esperando
  | sintetizando
  | tocando
  | limpando
  | concluida
deriving DecidableEq

/-- Global state of `n` potential `sintetizar_voz` calls sharing the one
`audio_lock`.  The lock is modelled with the FIFO waiter queue that
`asyncio.Lock` documents: `fila` is the waiter queue, `dono` the current
holder.  `invocadas`, `adquiridas` and `tocadas` record the order in
which calls were made, acquired the lock, and started playback. -/
structure EstadoAudio (n : ℕ) where
  fase : Fin n → FaseTarefa
  fila : List (Fin n)
  dono : Option (Fin n)
  invocadas : List (Fin n)
  adquiridas : List (Fin n)
  tocadas : List (Fin n)

/-- No call has started: all idle, lock free, no history. -/
def estadoInicial (n : ℕ) : EstadoAudio n :=
  ⟨fun _ => .inativa, [], none, [], [], []⟩

/-- Being inside the `async with self.audio_lock` block: the whole
synthesize–play–delete sequence holds the lock. -/
def segurando (f : FaseTarefa) : Prop :=
  f = .sintetizando ∨ f = .tocando ∨ f = .limpando

/-- Interleaving semantics of the `sintetizar_voz` calls: a call is
invoked (joins the lock queue), acquires the lock when it is free and
the call is first in line, then synthesises, plays, cleans up and
releases, all while holding the lock — exactly the structure of the
`async with self.audio_lock` block.  The `falhar` transition is the
`except` degrade path (lines 173–174): a call whose synthesis or
playback setup raises logs the error and leaves the locked block
without ever playing, releasing the lock. -/
inductive PassoAudio {n : ℕ} : EstadoAudio n → EstadoAudio n → Prop
  | invocar (s : EstadoAudio n) (i : Fin n) :
      s.fase i = .inativa →
      PassoAudio s ⟨Function.update s.fase i .esperando, s.fila ++ [i], s.dono,
        s.invocadas ++ [i], s.adquiridas, s.tocadas⟩
  | adquirir (s : EstadoAudio n) (i : Fin n) (resto : List (Fin n)) :
      s.fase i = .esperando → s.fila = i :: resto → s.dono = none →
      PassoAudio s ⟨Function.update s.fase i .sintetizando, resto, some i,
        s.invocadas, s.adquiridas ++ [i], s.tocadas⟩
  | tocar (s : EstadoAudio n) (i : Fin n) :
      s.fase i = .sintetizando →
      PassoAudio s ⟨Function.update s.fase i .tocando, s.fila, s.dono,
        s.invocadas, s.adquiridas, s.tocadas ++ [i]⟩
  | falhar (s : EstadoAudio n) (i : Fin n) :
      s.fase i = .sintetizando →
      PassoAudio s ⟨Function.update s.fase i .concluida, s.fila, none,
        s.invocadas, s.adquiridas, s.tocadas⟩
  | terminarToque (s : EstadoAudio n) (i : Fin n) :
      s.fase i = .tocando →
      PassoAudio s ⟨Function.update s.fase i .limpando, s.fila, s.dono,
        s.invocadas, s.adquiridas, s.tocadas⟩
  | liberar (s : EstadoAudio n) (i : Fin n) :
      s.fase i = .limpando →
      PassoAudio s ⟨Function.update s.fase i .concluida, s.fila, none,
        s.invocadas, s.adquiridas, s.tocadas⟩

/-- States reachable from the all-idle initial state. -/
inductive Alcancavel {n : ℕ} : EstadoAudio n → Prop
  | inicial : Alcancavel (estadoInicial n)
  | passo {s s' : EstadoAudio n} : Alcancavel s → PassoAudio s s' → Alcancavel s'

/-- Invariant of the audio-lock discipline: exactly the lock holder is
inside the locked block, the invocation order is the acquisition order
followed by the waiter queue, the playback history is an
order-preserving subsequence of the acquisition history (a call may
degrade to silence before playing, via `falhar`), and the one holder
that has not yet played acquired the lock after everything that has
already played. -/
structure InvAudio {n : ℕ} (s : EstadoAudio n) : Prop where
  donoSeg : ∀ i, segurando (s.fase i) ↔ s.dono = some i
  ordem : s.invocadas = s.adquiridas ++ s.fila
  tocSub : List.Sublist s.tocadas s.adquiridas
  tocSeg : ∀ i, s.fase i = .sintetizando →
    ∃ pre, s.adquiridas = pre ++ [i] ∧ List.Sublist s.tocadas pre

theorem rota_head (g : Grid) (s : Cell) :
    ∀ {p : List Cell} {c : Cell}, Rota g s p c → (p ++ [c]).head? = some s := by
  intro p c h
  induction h with
  | nil => rfl
  | @snoc q b d hr hadj hl ih =>
    cases q with
    | nil =>
      simp only [List.nil_append, List.head?_cons, Option.some.injEq] at ih
      simp [ih]
    | cons a t => simpa using ih

theorem rota_chain (g : Grid) (s : Cell) :
    ∀ {p : List Cell} {c : Cell}, Rota g s p c → List.Chain' Adj (p ++ [c]) := by
  intro p c h
  induction h with
  | nil => simp
  | @snoc q b d hr hadj hl ih =>
    refine List.Chain'.append ih (by simp) ?_
    intro x hx y hy
    simp at hx hy
    subst hx
    subst hy
    exact hadj

theorem rota_tail_livre (g : Grid) (s : Cell) :
    ∀ {p : List Cell} {c : Cell}, Rota g s p c →
      ∀ x ∈ (p ++ [c]).tail, livre g x := by
  intro p c h
  induction h with
  | nil => simp
  | @snoc q b d hr hadj hl ih =>
    intro x hx
    cases q with
    | nil =>
      simp at hx
      simpa [hx] using hl
    | cons a t =>
      simp only [List.cons_append, List.tail_cons] at hx ih
      rcases List.mem_append.mp hx with h1 | h2
      · exact ih x h1
      · simp at h2
        simpa [h2] using hl

theorem rota_last (g : Grid) (s : Cell) {p : List Cell} {c : Cell}
    (_ : Rota g s p c) : (p ++ [c]).getLast? = some c := by
  simp

/-- Each route step changes the Manhattan distance from `s` by at most
one, so a route to `c` has at least `manhattan s c` steps. -/
theorem rota_manhattan_le (g : Grid) (s : Cell) :
    ∀ {p : List Cell} {c : Cell}, Rota g s p c → manhattan s c ≤ p.length := by
  intro p c h
  induction h with
  | nil => simp [manhattan]
  | @snoc q b d hr hadj hl ih =>
    unfold Adj manhattan at hadj
    unfold manhattan at ih ⊢
    simp only [List.length_append, List.length_singleton]
    omega

/-- Prepending the start cell to a route: used to build routes front to
back when constructing the explicit shortest path on an empty grid. -/
theorem rota_cons (g : Grid) {s s' : Cell} (hadj : Adj s s') (hl : livre g s') :
    ∀ {p : List Cell} {c : Cell}, Rota g s' p c → Rota g s (s :: p) c := by
  intro p c h
  induction h with
  | nil => exact Rota.snoc Rota.nil hadj hl
  | @snoc q b d hr ha hv ih => exact Rota.snoc ih ha hv

theorem adj_symm {a b : Cell} (h : Adj a b) : Adj b a := by
  unfold Adj manhattan at h ⊢
  omega

theorem adj_mk {ax ay bx b2 : ℤ} (h : (ax - bx).natAbs + (ay - b2).natAbs = 1) :
    Adj (ax, ay) (bx, b2) := by
  unfold Adj manhattan
  simpa using h

theorem livre_vazio (w h x y : ℤ) (h1 : 0 ≤ x) (h2 : x < w)
    (h3 : 0 ≤ y) (h4 : y < h) : livre ⟨w, h, ∅⟩ (x, y) :=
  ⟨⟨h1, h2, h3, h4⟩, by simp⟩

/-- Vertical segment of the explicit shortest route on an empty grid. -/
theorem rota_vazio_y (w h : ℤ) : ∀ (n : ℕ) (x ay b2 : ℤ), (ay - b2).natAbs = n →
    0 ≤ x → x < w → 0 ≤ ay → ay < h → 0 ≤ b2 → b2 < h →
    ∃ p : List Cell, Rota ⟨w, h, ∅⟩ (x, ay) p (x, b2) ∧
      p.length = (ay - b2).natAbs := by
  intro n
  induction n with
  | zero =>
    intro x ay b2 hn _ _ _ _ _ _
    have heq : ay = b2 := by omega
    subst heq
    exact ⟨[], Rota.nil, by simp⟩
  | succ n ih =>
    intro x ay b2 hn hx1 hx2 h1 h2 h3 h4
    rcases lt_or_gt_of_ne (show ay ≠ b2 by omega) with hd | hd
    · obtain ⟨p, hp, hlen⟩ := ih x (ay + 1) b2 (by omega) hx1 hx2 (by omega) (by omega) h3 h4
      refine ⟨(x, ay) :: p,
        rota_cons _ (adj_mk (by omega))
          (livre_vazio w h x (ay + 1) hx1 hx2 (by omega) (by omega)) hp, ?_⟩
      simp only [List.length_cons]
      omega
    · obtain ⟨p, hp, hlen⟩ := ih x (ay - 1) b2 (by omega) hx1 hx2 (by omega) (by omega) h3 h4
      refine ⟨(x, ay) :: p,
        rota_cons _ (adj_mk (by omega))
          (livre_vazio w h x (ay - 1) hx1 hx2 (by omega) (by omega)) hp, ?_⟩
      simp only [List.length_cons]
      omega

/-- On an obstacle-free grid an explicit route of length exactly
`manhattan s t` exists between any two in-bounds cells: move along `x`
first, then along `y`. -/
theorem rota_livre_existe (w h : ℤ) (s t : Cell)
    (hs : inBounds ⟨w, h, ∅⟩ s) (ht : inBounds ⟨w, h, ∅⟩ t) :
    ∃ p : List Cell, Rota ⟨w, h, ∅⟩ s p t ∧ p.length = manhattan s t := by
  obtain ⟨sx, sy⟩ := s
  obtain ⟨tx, ty⟩ := t
  have hs' : 0 ≤ sx ∧ sx < w ∧ 0 ≤ sy ∧ sy < h := hs
  have ht' : 0 ≤ tx ∧ tx < w ∧ 0 ≤ ty ∧ ty < h := ht
  obtain ⟨hs1, hs2, hs3, hs4⟩ := hs'
  obtain ⟨ht1, ht2, ht3, ht4⟩ := ht'
  have hx : ∀ (n : ℕ) (ax : ℤ), (ax - tx).natAbs = n → 0 ≤ ax → ax < w →
      ∀ (ay : ℤ), 0 ≤ ay → ay < h →
      ∃ p : List Cell, Rota ⟨w, h, ∅⟩ (ax, ay) p (tx, ty) ∧
        p.length = (ax - tx).natAbs + (ay - ty).natAbs := by
    intro n
    induction n with
    | zero =>
      intro ax hax h0 h1 ay h2 h3
      have heq : ax = tx := by omega
      subst heq
      obtain ⟨p, hp, hlen⟩ :=
        rota_vazio_y w h (ay - ty).natAbs ax ay ty rfl h0 h1 h2 h3 ht3 ht4
      exact ⟨p, hp, by omega⟩
    | succ n ih =>
      intro ax hax h0 h1 ay h2 h3
      rcases lt_or_gt_of_ne (show ax ≠ tx by omega) with hd | hd
      · obtain ⟨p, hp, hlen⟩ := ih (ax + 1) (by omega) (by omega) (by omega) ay h2 h3
        refine ⟨(ax, ay) :: p,
          rota_cons _ (adj_mk (by omega))
            (livre_vazio w h (ax + 1) ay (by omega) (by omega) h2 h3) hp, ?_⟩
        simp only [List.length_cons]
        omega
      · obtain ⟨p, hp, hlen⟩ := ih (ax - 1) (by omega) (by omega) (by omega) ay h2 h3
        refine ⟨(ax, ay) :: p,
          rota_cons _ (adj_mk (by omega))
            (livre_vazio w h (ax - 1) ay (by omega) (by omega) h2 h3) hp, ?_⟩
        simp only [List.length_cons]
        omega
  obtain ⟨p, hp, hlen⟩ := hx (sx - tx).natAbs sx rfl hs1 hs2 sy hs3 hs4
  exact ⟨p, hp, by unfold manhattan; simpa using hlen⟩

theorem mem_celulas (g : Grid) (c : Cell) : c ∈ celulas g ↔ inBounds g c := by
  unfold celulas inBounds
  rw [Finset.mem_product, Finset.mem_Icc, Finset.mem_Icc]
  omega

theorem card_celulas (g : Grid) :
    (celulas g).card = g.largura.toNat * g.altura.toNat := by
  unfold celulas
  rw [Finset.card_product, Int.card_Icc, Int.card_Icc]
  have e1 : g.largura - 1 + 1 - 0 = g.largura := by ring
  have e2 : g.altura - 1 + 1 - 0 = g.altura := by ring
  rw [e1, e2]

theorem cell_eq {b : Cell} {x y : ℤ} (h1 : b.1 = x) (h2 : b.2 = y) : b = (x, y) := by
  rw [Prod.ext_iff]
  exact ⟨h1, h2⟩

/-- Every offset in the BFS move table leads to a 4-adjacent cell. -/
theorem adj_move (c : Cell) {d : Cell} (hd : d ∈ moves) :
    Adj c (c.1 + d.1, c.2 + d.2) := by
  obtain ⟨cx, cy⟩ := c
  simp only [moves, List.mem_cons, List.not_mem_nil, or_false] at hd
  rcases hd with h | h | h | h <;> subst h
  · show Adj (cx, cy) (cx + 0, cy + 1)
    exact adj_mk (by omega)
  · show Adj (cx, cy) (cx + 0, cy + -1)
    exact adj_mk (by omega)
  · show Adj (cx, cy) (cx + 1, cy + 0)
    exact adj_mk (by omega)
  · show Adj (cx, cy) (cx + -1, cy + 0)
    exact adj_mk (by omega)

/-- Conversely every 4-adjacent cell is reached by one of the four BFS
move offsets, so the inner loop enumerates all neighbours. -/
theorem adj_para_move {a b : Cell} (h : Adj a b) :
    ∃ d ∈ moves, b = (a.1 + d.1, a.2 + d.2) := by
  unfold Adj manhattan at h
  have hcase : (b.1 = a.1 ∧ b.2 = a.2 + 1) ∨ (b.1 = a.1 ∧ b.2 = a.2 + -1) ∨
      (b.1 = a.1 + 1 ∧ b.2 = a.2) ∨ (b.1 = a.1 + -1 ∧ b.2 = a.2) := by omega
  rcases hcase with ⟨h1, h2⟩ | ⟨h1, h2⟩ | ⟨h1, h2⟩ | ⟨h1, h2⟩
  · exact ⟨(0, 1), by simp [moves], cell_eq (by omega) (by omega)⟩
  · exact ⟨(0, -1), by simp [moves], cell_eq (by omega) (by omega)⟩
  · exact ⟨(1, 0), by simp [moves], cell_eq (by omega) (by omega)⟩
  · exact ⟨(-1, 0), by simp [moves], cell_eq (by omega) (by omega)⟩

/-- Full characterisation of one pass of the BFS neighbour loop: the new
entries are appended in offset order, all carry the extended path, are
fresh, valid, pairwise distinct, and every valid neighbour reachable by
one of the scanned offsets ends up visited. -/
theorem passo_spec (g : Grid) (c : Cell) (p : List Cell) :
    ∀ (ds : List Cell) (q : List Entrada) (v : Finset Cell),
    ∃ news : List Entrada,
      passo g c p ds (q, v) = (q ++ news, v ∪ (news.map Prod.fst).toFinset) ∧
      (∀ e ∈ news, e.2 = p ++ [c] ∧ livre g e.1 ∧ e.1 ∉ v ∧
        ∃ d ∈ ds, e.1 = (c.1 + d.1, c.2 + d.2)) ∧
      (news.map Prod.fst).Nodup ∧
      (∀ d ∈ ds, livre g (c.1 + d.1, c.2 + d.2) →
        (c.1 + d.1, c.2 + d.2) ∈ v ∪ (news.map Prod.fst).toFinset) := by
  intro ds
  induction ds with
  | nil =>
    intro q v
    exact ⟨[], by simp [passo], by simp, by simp, by simp⟩
  | cons d ds ih =>
    intro q v
    by_cases hc : livre g (c.1 + d.1, c.2 + d.2) ∧ (c.1 + d.1, c.2 + d.2) ∉ v
    · obtain ⟨news, heq, hprops, hnd, hcov⟩ :=
        ih (q ++ [((c.1 + d.1, c.2 + d.2), p ++ [c])]) (insert (c.1 + d.1, c.2 + d.2) v)
      have hset : ∀ S : Finset Cell,
          insert (c.1 + d.1, c.2 + d.2) v ∪ S =
            v ∪ insert (c.1 + d.1, c.2 + d.2) S := by
        intro S
        rw [Finset.insert_union, Finset.union_insert]
      refine ⟨((c.1 + d.1, c.2 + d.2), p ++ [c]) :: news, ?_, ?_, ?_, ?_⟩
      · show passo g c p (d :: ds) (q, v) = _
        rw [passo, if_pos hc, heq]
        simp only [List.map_cons, List.toFinset_cons, List.append_assoc,
          List.singleton_append]
        rw [← hset]
      · intro e he
        rcases List.mem_cons.mp he with he | he
        · subst he
          exact ⟨rfl, hc.1, hc.2, d, List.mem_cons_self _ _, rfl⟩
        · obtain ⟨h1, h2, h3, d', hd', h4⟩ := hprops e he
          exact ⟨h1, h2, fun hv => h3 (Finset.mem_insert_of_mem hv),
            d', List.mem_cons_of_mem _ hd', h4⟩
      · rw [List.map_cons]
        refine List.nodup_cons.mpr ⟨?_, hnd⟩
        intro hmem
        obtain ⟨e, he, hfst⟩ := List.mem_map.mp hmem
        exact (hprops e he).2.2.1 (hfst ▸ Finset.mem_insert_self _ _)
      · intro d' hd' hl
        rcases List.mem_cons.mp hd' with hd' | hd'
        · subst hd'
          simp only [List.map_cons, List.toFinset_cons]
          exact Finset.mem_union_right _ (Finset.mem_insert_self _ _)
        · have := hcov d' hd' hl
          rw [hset] at this
          simpa using this
    · obtain ⟨news, heq, hprops, hnd, hcov⟩ := ih q v
      refine ⟨news, ?_, ?_, hnd, ?_⟩
      · show passo g c p (d :: ds) (q, v) = _
        rw [passo, if_neg hc, heq]
      · intro e he
        obtain ⟨h1, h2, h3, d', hd', h4⟩ := hprops e he
        exact ⟨h1, h2, h3, d', List.mem_cons_of_mem _ hd', h4⟩
      · intro d' hd' hl
        rcases List.mem_cons.mp hd' with hd' | hd'
        · subst hd'
          have hv : (c.1 + d'.1, c.2 + d'.2) ∈ v := by
            by_contra hnv
            exact hc ⟨hl, hnv⟩
          exact Finset.mem_union_left _ hv
        · exact hcov d' hd' hl

theorem head?_mem {α : Type _} {l : List α} {a : α} (h : l.head? = some a) :
    a ∈ l := by
  cases l with
  | nil => simp at h
  | cons x t =>
    simp only [List.head?_cons, Option.some.injEq] at h
    exact h ▸ List.mem_cons_self x t

/-- The front queue entry has minimal path length. -/
theorem Inv.front_min {g : Grid} {s goal : Cell} {e : Entrada} {rest : List Entrada}
    {V : Finset Cell} (inv : Inv g s goal (e :: rest) V) :
    ∀ f ∈ e :: rest, e.2.length ≤ f.2.length := by
  intro f hf
  rcases List.mem_cons.mp hf with hf | hf
  · subst hf; exact le_refl _
  · exact (List.pairwise_cons.mp inv.sorted).1 f hf

/-- While the front entry has path length `n`, every cell reachable by a
route of at most `n` steps has already been visited. -/
theorem Inv.alcancado {g : Grid} {s goal : Cell} {e : Entrada} {rest : List Entrada}
    {V : Finset Cell} (inv : Inv g s goal (e :: rest) V) :
    ∀ (r : List Cell) (wc : Cell), Rota g s r wc → r.length ≤ e.2.length → wc ∈ V := by
  intro r wc hr
  induction hr with
  | nil => intro _; exact inv.inicioMem
  | @snoc q b d hq hadj hl ih =>
    intro hle
    simp only [List.length_append, List.length_singleton] at hle
    have hb : b ∈ V := ih (by omega)
    by_cases hbq : b ∈ (e :: rest).map Prod.fst
    · obtain ⟨eb, heb, hfst⟩ := List.mem_map.mp hbq
      have hrb : Rota g s q eb.1 := by rw [hfst]; exact hq
      have h2 := inv.front_min eb heb
      exact absurd (inv.minimal eb heb q hrb) (by omega)
    · exact inv.fecho b hb hbq d hadj hl

/-- Once the queue is empty every reachable cell has been visited. -/
theorem Inv.tudo_alcancado {g : Grid} {s goal : Cell} {V : Finset Cell}
    (inv : Inv g s goal [] V) :
    ∀ (r : List Cell) (wc : Cell), Rota g s r wc → wc ∈ V := by
  intro r wc hr
  induction hr with
  | nil => exact inv.inicioMem
  | @snoc q b d hq hadj hl ih =>
    exact inv.fecho b ih (by simp) d hadj hl

theorem pairwise_snd_const {p : List Cell} :
    ∀ (l : List Entrada), (∀ e ∈ l, e.2 = p) →
      l.Pairwise (fun e1 e2 : Entrada => e1.2.length ≤ e2.2.length) := by
  intro l
  induction l with
  | nil => intro _; exact List.Pairwise.nil
  | cons a t ih =>
    intro h
    refine List.pairwise_cons.mpr ⟨?_, ih fun e he => h e (List.mem_cons_of_mem _ he)⟩
    intro e he
    rw [h a (List.mem_cons_self _ _), h e (List.mem_cons_of_mem _ he)]

/-- Popping the (non-goal) front entry and enqueuing its fresh valid
neighbours preserves the BFS invariant and decreases the measure
`|queue| + |unvisited in-bounds cells|` by exactly one. -/
theorem inv_passo {g : Grid} {s goal c : Cell} {p : List Cell} {rest : List Entrada}
    {V : Finset Cell} (inv : Inv g s goal ((c, p) :: rest) V) (hcg : c ≠ goal) :
    Inv g s goal (passo g c p moves (rest, V)).1 (passo g c p moves (rest, V)).2 ∧
    (passo g c p moves (rest, V)).1.length +
      (celulas g \ (passo g c p moves (rest, V)).2).card + 1 =
      ((c, p) :: rest).length + (celulas g \ V).card := by
  obtain ⟨news, heq, hprops, hnd, hcov⟩ := passo_spec g c p moves rest V
  rw [heq]
  dsimp only
  have hfront : Rota g s p c := inv.sound (c, p) (List.mem_cons_self _ _)
  have hfm : ∀ f ∈ (c, p) :: rest, p.length ≤ f.2.length := inv.front_min
  have hspan_old : ∀ e ∈ (c, p) :: rest, e.2.length ≤ p.length + 1 :=
    fun e he => inv.span e he (c, p) rfl
  constructor
  · refine ⟨?_, ?_, ?_, ?_, ?_, ?_, ?_, ?_, ?_⟩
    · intro e he
      rcases List.mem_append.mp he with he | he
      · exact inv.sound e (List.mem_cons_of_mem _ he)
      · obtain ⟨hsnd, hlivre, hnotv, d, hd, hw⟩ := hprops e he
        have hadj : Adj c e.1 := by rw [hw]; exact adj_move c hd
        rw [hsnd]
        exact Rota.snoc hfront hadj hlivre
    · intro e he r hr
      rcases List.mem_append.mp he with he | he
      · exact inv.minimal e (List.mem_cons_of_mem _ he) r hr
      · obtain ⟨hsnd, hlivre, hnotv, d, hd, hw⟩ := hprops e he
        rw [hsnd]
        simp only [List.length_append, List.length_singleton]
        by_contra hlt
        push_neg at hlt
        exact hnotv (inv.alcancado r e.1 hr (show r.length ≤ p.length by omega))
    · rw [List.pairwise_append]
      refine ⟨inv.sorted.of_cons, pairwise_snd_const news (fun e he => (hprops e he).1), ?_⟩
      intro e1 he1 e2 he2
      have h1 := hspan_old e1 (List.mem_cons_of_mem _ he1)
      rw [(hprops e2 he2).1]
      simp only [List.length_append, List.length_singleton]
      omega
    · intro e he f hf
      have hfq : f ∈ rest ++ news := head?_mem hf
      have hfge : p.length ≤ f.2.length := by
        rcases List.mem_append.mp hfq with h | h
        · exact hfm f (List.mem_cons_of_mem _ h)
        · rw [(hprops f h).1]
          simp only [List.length_append, List.length_singleton]
          omega
      have hele : e.2.length ≤ p.length + 1 := by
        rcases List.mem_append.mp he with h | h
        · exact hspan_old e (List.mem_cons_of_mem _ h)
        · rw [(hprops e h).1]
          simp only [List.length_append, List.length_singleton]
          omega
      omega
    · intro e he
      rcases List.mem_append.mp he with he | he
      · exact Finset.mem_union_left _ (inv.subV e (List.mem_cons_of_mem _ he))
      · exact Finset.mem_union_right _
          (List.mem_toFinset.mpr (List.mem_map_of_mem _ he))
    · rw [List.map_append]
      refine List.nodup_append.mpr ⟨inv.semRepete.of_cons, hnd, ?_⟩
      intro a ha hb
      obtain ⟨e, he, hfst⟩ := List.mem_map.mp hb
      have haV : a ∈ V := by
        obtain ⟨e1, he1, hf1⟩ := List.mem_map.mp ha
        rw [← hf1]
        exact inv.subV e1 (List.mem_cons_of_mem _ he1)
      exact (hprops e he).2.2.1 (by rw [hfst]; exact haV)
    · intro x hx hxq w hadj hl
      rcases Finset.mem_union.mp hx with hx | hx
      · by_cases hxc : x = c
        · subst hxc
          obtain ⟨d, hd, hw⟩ := adj_para_move hadj
          rw [hw]
          exact hcov d hd (by rw [← hw]; exact hl)
        · have hxq_old : x ∉ ((c, p) :: rest).map Prod.fst := by
            intro hmem
            rw [List.map_cons] at hmem
            rcases List.mem_cons.mp hmem with h | h
            · exact hxc h
            · refine hxq ?_
              rw [List.map_append]
              exact List.mem_append_left _ h
          exact Finset.mem_union_left _ (inv.fecho x hx hxq_old w hadj hl)
      · exfalso
        apply hxq
        rw [List.map_append]
        exact List.mem_append_right _ (List.mem_toFinset.mp hx)
    · exact Finset.mem_union_left _ inv.inicioMem
    · intro hg
      rcases Finset.mem_union.mp hg with hg | hg
      · have hmem := inv.goalQ hg
        rw [List.map_cons] at hmem
        rcases List.mem_cons.mp hmem with h | h
        · exact absurd h.symm hcg
        · rw [List.map_append]
          exact List.mem_append_left _ h
      · rw [List.map_append]
        exact List.mem_append_right _ (List.mem_toFinset.mp hg)
  · have hSsub : (news.map Prod.fst).toFinset ⊆ celulas g \ V := by
      intro x hxS
      obtain ⟨e, he, hfst⟩ := List.mem_map.mp (List.mem_toFinset.mp hxS)
      obtain ⟨_, hlivre, hnotv, _⟩ := hprops e he
      rw [← hfst]
      exact Finset.mem_sdiff.mpr ⟨(mem_celulas g e.1).mpr hlivre.1, hnotv⟩
    have hsdiff : celulas g \ (V ∪ (news.map Prod.fst).toFinset) =
        (celulas g \ V) \ (news.map Prod.fst).toFinset := by
      ext x
      simp only [Finset.mem_sdiff, Finset.mem_union]
      tauto
    have hScard : (news.map Prod.fst).toFinset.card = news.length := by
      rw [List.toFinset_card_of_nodup hnd, List.length_map]
    have hle : (news.map Prod.fst).toFinset.card ≤ (celulas g \ V).card :=
      Finset.card_le_card hSsub
    rw [hsdiff, Finset.card_sdiff hSsub]
    simp only [List.length_append, List.length_cons]
    omega

/-- The combined BFS soundness-and-optimality plus conditional
completeness statement, by induction on the iteration fuel. -/
theorem bfsAux_princ (g : Grid) (s goal : Cell) :
    ∀ (fuel : ℕ) (Q : List Entrada) (V : Finset Cell), Inv g s goal Q V →
      (∀ pf, bfsAux g goal fuel Q V = some pf →
        ∃ pre, pf = pre ++ [goal] ∧ Rota g s pre goal ∧
          ∀ r, Rota g s r goal → pre.length ≤ r.length) ∧
      ((∃ r, Rota g s r goal) → Q.length + (celulas g \ V).card < fuel →
        ∃ pf, bfsAux g goal fuel Q V = some pf) := by
  intro fuel
  induction fuel with
  | zero =>
    intro Q V _
    constructor
    · intro pf h
      simp [bfsAux] at h
    · intro _ h
      omega
  | succ fuel ih =>
    intro Q V hinv
    cases Q with
    | nil =>
      constructor
      · intro pf h
        simp [bfsAux] at h
      · rintro ⟨r, hr⟩ _
        have hgV : goal ∈ V := hinv.tudo_alcancado r goal hr
        have := hinv.goalQ hgV
        simp at this
    | cons e rest =>
      obtain ⟨c, p⟩ := e
      by_cases hcg : c = goal
      · subst hcg
        constructor
        · intro pf h
          rw [bfsAux, if_pos rfl] at h
          refine ⟨p, by simpa using h.symm,
            hinv.sound (c, p) (List.mem_cons_self _ _), ?_⟩
          intro r hr
          exact hinv.minimal (c, p) (List.mem_cons_self _ _) r hr
        · intro _ _
          exact ⟨p ++ [c], by rw [bfsAux, if_pos rfl]⟩
      · obtain ⟨hinv', hmede⟩ := inv_passo hinv hcg
        have heval : bfsAux g goal (fuel + 1) ((c, p) :: rest) V =
            bfsAux g goal fuel (passo g c p moves (rest, V)).1
              (passo g c p moves (rest, V)).2 := by
          rw [bfsAux, if_neg hcg]
        obtain ⟨ih1, ih2⟩ :=
          ih (passo g c p moves (rest, V)).1 (passo g c p moves (rest, V)).2 hinv'
        constructor
        · intro pf h
          rw [heval] at h
          exact ih1 pf h
        · intro hex hμ
          rw [heval]
          refine ih2 hex ?_
          simp only [List.length_cons] at hmede hμ
          omega

theorem inv_inicial (g : Grid) (s goal : Cell) : Inv g s goal [(s, [])] {s} := by
  refine ⟨?_, ?_, ?_, ?_, ?_, ?_, ?_, ?_, ?_⟩
  · intro e he
    simp at he
    rw [he]
    exact Rota.nil
  · intro e he r hr
    simp at he
    rw [he]
    simp
  · simp
  · intro e he f hf
    simp at he hf
    rw [he, hf]
    simp
  · intro e he
    simp at he
    rw [he]
    exact Finset.mem_singleton_self s
  · simp
  · intro x hx hxq w hadj hl
    exfalso
    apply hxq
    simp at hx ⊢
    exact hx
  · exact Finset.mem_singleton_self s
  · intro hg
    simp at hg ⊢
    exact hg

theorem mede_inicial (g : Grid) (s : Cell) :
    1 + (celulas g \ {s}).card < fuelDe g := by
  have h1 : (celulas g \ {s}).card ≤ (celulas g).card :=
    Finset.card_le_card Finset.sdiff_subset
  rw [card_celulas] at h1
  unfold fuelDe
  omega

/-- BFS soundness and optimality: a returned path is a valid route from
the start to the goal, of minimal length among all valid routes. -/
theorem bfs_correto (g : Grid) (s goal : Cell) {pf : List Cell}
    (h : bfs g s goal = some pf) :
    ∃ pre, pf = pre ++ [goal] ∧ Rota g s pre goal ∧
      ∀ r, Rota g s r goal → pre.length ≤ r.length :=
  ((bfsAux_princ g s goal (fuelDe g) [(s, [])] {s} (inv_inicial g s goal)).1) pf h

/-- BFS completeness: whenever a valid route to the goal exists, the
search (with its fixed fuel) returns a path. -/
theorem bfs_completo (g : Grid) (s goal : Cell) (hex : ∃ r, Rota g s r goal) :
    ∃ pf, bfs g s goal = some pf :=
  (bfsAux_princ g s goal (fuelDe g) [(s, [])] {s} (inv_inicial g s goal)).2 hex
    (by simpa using mede_inicial g s)

theorem invAudio_inicial (n : ℕ) : InvAudio (estadoInicial n) := by
  refine ⟨?_, ?_, ?_, ?_⟩
  · intro i
    constructor
    · intro h
      rcases h with h | h | h <;> simp [estadoInicial] at h
    · intro h
      simp [estadoInicial] at h
  · rfl
  · exact List.Sublist.refl _
  · intro i h
    simp [estadoInicial] at h

theorem invAudio_passo {n : ℕ} {s s' : EstadoAudio n}
    (inv : InvAudio s) (hp : PassoAudio s s') : InvAudio s' := by
  cases hp with
  | invocar i hi =>
    refine ⟨?_, ?_, ?_, ?_⟩
    · intro j
      dsimp only
      by_cases hij : j = i
      · subst hij
        rw [Function.update_same]
        constructor
        · intro h
          rcases h with h | h | h <;> simp at h
        · intro h
          have h2 := (inv.donoSeg j).mpr h
          rw [hi] at h2
          rcases h2 with h' | h' | h' <;> simp at h'
      · rw [Function.update_noteq hij]
        exact inv.donoSeg j
    · dsimp only
      rw [inv.ordem, List.append_assoc]
    · exact inv.tocSub
    · intro j hj
      dsimp only at hj ⊢
      by_cases hij : j = i
      · subst hij
        rw [Function.update_same] at hj
        simp at hj
      · rw [Function.update_noteq hij] at hj
        exact inv.tocSeg j hj
  | adquirir i resto hesp hfila hdono =>
    have hnosint : ∀ k, s.fase k ≠ FaseTarefa.sintetizando := by
      intro k hk
      have h2 := (inv.donoSeg k).mp (Or.inl hk)
      rw [hdono] at h2
      simp at h2
    refine ⟨?_, ?_, ?_, ?_⟩
    · intro j
      dsimp only
      by_cases hij : j = i
      · subst hij
        rw [Function.update_same]
        constructor
        · intro _
          rfl
        · intro _
          exact Or.inl rfl
      · rw [Function.update_noteq hij]
        constructor
        · intro h
          have h2 := (inv.donoSeg j).mp h
          rw [hdono] at h2
          simp at h2
        · intro h
          exact absurd (Option.some.inj h).symm hij
    · dsimp only
      rw [inv.ordem, hfila, List.append_assoc]
      rfl
    · dsimp only
      exact inv.tocSub.trans (List.sublist_append_left s.adquiridas [i])
    · intro j hj
      dsimp only at hj ⊢
      by_cases hij : j = i
      · subst hij
        exact ⟨s.adquiridas, rfl, inv.tocSub⟩
      · rw [Function.update_noteq hij] at hj
        exact absurd hj (hnosint j)
  | tocar i hsin =>
    refine ⟨?_, ?_, ?_, ?_⟩
    · intro j
      dsimp only
      by_cases hij : j = i
      · subst hij
        rw [Function.update_same]
        constructor
        · intro _
          exact (inv.donoSeg j).mp (Or.inl hsin)
        · intro _
          exact Or.inr (Or.inl rfl)
      · rw [Function.update_noteq hij]
        exact inv.donoSeg j
    · exact inv.ordem
    · dsimp only
      obtain ⟨pre, hpre, hsub⟩ := inv.tocSeg i hsin
      rw [hpre]
      exact List.Sublist.append hsub (List.Sublist.refl [i])
    · intro j hj
      dsimp only at hj ⊢
      by_cases hij : j = i
      · subst hij
        rw [Function.update_same] at hj
        simp at hj
      · rw [Function.update_noteq hij] at hj
        have h1 := (inv.donoSeg j).mp (Or.inl hj)
        have h2 := (inv.donoSeg i).mp (Or.inl hsin)
        rw [h2] at h1
        exact absurd (Option.some.inj h1).symm hij
  | falhar i hsin =>
    refine ⟨?_, ?_, ?_, ?_⟩
    · intro j
      dsimp only
      by_cases hij : j = i
      · subst hij
        rw [Function.update_same]
        constructor
        · intro h
          rcases h with h | h | h <;> simp at h
        · intro h
          simp at h
      · rw [Function.update_noteq hij]
        constructor
        · intro h
          have h1 := (inv.donoSeg j).mp h
          have h2 := (inv.donoSeg i).mp (Or.inl hsin)
          rw [h2] at h1
          exact absurd (Option.some.inj h1).symm hij
        · intro h
          simp at h
    · exact inv.ordem
    · exact inv.tocSub
    · intro j hj
      dsimp only at hj ⊢
      by_cases hij : j = i
      · subst hij
        rw [Function.update_same] at hj
        simp at hj
      · rw [Function.update_noteq hij] at hj
        exact inv.tocSeg j hj
  | terminarToque i htoc =>
    refine ⟨?_, ?_, ?_, ?_⟩
    · intro j
      dsimp only
      by_cases hij : j = i
      · subst hij
        rw [Function.update_same]
        constructor
        · intro _
          exact (inv.donoSeg j).mp (Or.inr (Or.inl htoc))
        · intro _
          exact Or.inr (Or.inr rfl)
      · rw [Function.update_noteq hij]
        exact inv.donoSeg j
    · exact inv.ordem
    · exact inv.tocSub
    · intro j hj
      dsimp only at hj ⊢
      by_cases hij : j = i
      · subst hij
        rw [Function.update_same] at hj
        simp at hj
      · rw [Function.update_noteq hij] at hj
        exact inv.tocSeg j hj
  | liberar i hlim =>
    refine ⟨?_, ?_, ?_, ?_⟩
    · intro j
      dsimp only
      by_cases hij : j = i
      · subst hij
        rw [Function.update_same]
        constructor
        · intro h
          rcases h with h | h | h <;> simp at h
        · intro h
          simp at h
      · rw [Function.update_noteq hij]
        constructor
        · intro h
          have h1 := (inv.donoSeg j).mp h
          have h2 := (inv.donoSeg i).mp (Or.inr (Or.inr hlim))
          rw [h2] at h1
          exact absurd (Option.some.inj h1).symm hij
        · intro h
          simp at h
    · exact inv.ordem
    · exact inv.tocSub
    · intro j hj
      dsimp only at hj ⊢
      by_cases hij : j = i
      · subst hij
        rw [Function.update_same] at hj
        simp at hj
      · rw [Function.update_noteq hij] at hj
        exact inv.tocSeg j hj


theorem invAudio_alcancavel {n : ℕ} {s : EstadoAudio n}
    (h : Alcancavel s) : InvAudio s := by
  induction h with
  | inicial => exact invAudio_inicial n
  | passo _ hp ih => exact invAudio_passo ih hp

theorem chain'_zip {l : List Cell} (h : List.Chain' Adj l) :
    ∀ pc ∈ l.zip l.tail, Adj pc.1 pc.2 := by
  induction l with
  | nil => simp
  | cons a l2 ih =>
    cases l2 with
    | nil => simp
    | cons b l3 =>
      intro pc hpc
      rw [List.chain'_cons] at h
      rw [List.tail_cons, List.zip_cons_cons] at hpc
      rcases List.mem_cons.mp hpc with h1 | h1
      · rw [h1]
        exact h.1
      · exact ih h.2 pc (by rw [List.tail_cons]; exact h1)

theorem direcao_adj {a b : Cell} (h : Adj a b) :
    direcaoDe (a, b) = instrDelta (b.1 - a.1, b.2 - a.2) ∧
      (direcaoDe (a, b)).isSome = true := by
  have hcase : (b.1 = a.1 ∧ b.2 = a.2 + 1) ∨ (b.1 = a.1 ∧ b.2 = a.2 - 1) ∨
      (b.1 = a.1 + 1 ∧ b.2 = a.2) ∨ (b.1 = a.1 - 1 ∧ b.2 = a.2) := by
    unfold Adj manhattan at h
    omega
  unfold direcaoDe instrDelta
  dsimp only
  rcases hcase with ⟨h1, h2⟩ | ⟨h1, h2⟩ | ⟨h1, h2⟩ | ⟨h1, h2⟩ <;>
    rw [h1, h2] <;> norm_num <;> split_ifs <;> rfl

theorem filterMap_length_todos {α β : Type _} (f : α → Option β) :
    ∀ (l : List α), (∀ x ∈ l, (f x).isSome = true) →
      (l.filterMap f).length = l.length := by
  intro l
  induction l with
  | nil => simp
  | cons a t ih =>
    intro h
    cases hfa : f a with
    | none =>
      exact absurd (h a (List.mem_cons_self _ _)) (by simp [hfa])
    | some b =>
      simp only [List.filterMap_cons, hfa, List.length_cons]
      rw [ih (fun x hx => h x (List.mem_cons_of_mem _ hx))]

/-- C1: on every obstacle-free grid, for in-bounds start and goal, the
BFS of `mover_para` returns a path of exactly `manhattan + 1` cells. -/
theorem claim_C1 (g : Grid) (s t : Cell) (hempty : g.prateleiras = ∅)
    (hs : inBounds g s) (ht : inBounds g t) :
    ∃ pf, bfs g s t = some pf ∧ pf.length = manhattan s t + 1 := by
  obtain ⟨w, h, pr⟩ := g
  have hpr : pr = ∅ := hempty
  subst hpr
  obtain ⟨r, hr, hrlen⟩ := rota_livre_existe w h s t hs ht
  obtain ⟨pf, hpf⟩ := bfs_completo ⟨w, h, ∅⟩ s t ⟨r, hr⟩
  obtain ⟨pre, hpre, hrota, hmin⟩ := bfs_correto _ s t hpf
  have h1 : pre.length ≤ manhattan s t := by
    have := hmin r hr
    omega
  have h2 : manhattan s t ≤ pre.length := rota_manhattan_le _ s hrota
  refine ⟨pf, hpf, ?_⟩
  rw [hpre]
  simp only [List.length_append, List.length_singleton]
  omega

/-- C1 witness: the 3×3 empty grid from (0,0) to (2,2) gives a 5-cell
path (spec end-to-end scenario 1). -/
theorem claim_C1_witness :
    ∃ pf, bfs ⟨3, 3, ∅⟩ (0, 0) (2, 2) = some pf ∧ pf.length = 5 := by
  obtain ⟨pf, h1, h2⟩ :=
    claim_C1 ⟨3, 3, ∅⟩ (0, 0) (2, 2) rfl (by decide) (by decide)
  refine ⟨pf, h1, ?_⟩
  rw [h2]
  decide

/-- C2: every path the BFS returns starts at the user's current cell,
has 4-adjacent consecutive cells, and all cells after the first are in
bounds and not shelves. -/
theorem claim_C2 (g : Grid) (s t : Cell) (pf : List Cell)
    (h : bfs g s t = some pf) :
    pf.head? = some s ∧ List.Chain' Adj pf ∧
      ∀ x ∈ pf.tail, inBounds g x ∧ x ∉ g.prateleiras := by
  obtain ⟨pre, hpre, hrota, _⟩ := bfs_correto g s t h
  subst hpre
  exact ⟨rota_head g s hrota, rota_chain g s hrota,
    fun x hx => rota_tail_livre g s hrota x hx⟩

/-- C2 witness: the path found on a 3×3 grid with a shelf at (1,1). -/
theorem claim_C2_witness :
    ([((0:ℤ), (0:ℤ)), (0, 1), (0, 2), (1, 2), (2, 2)] : List Cell).head? =
        some (0, 0) ∧
      List.Chain' Adj [((0:ℤ), (0:ℤ)), (0, 1), (0, 2), (1, 2), (2, 2)] ∧
      ∀ x ∈ ([((0:ℤ), (0:ℤ)), (0, 1), (0, 2), (1, 2), (2, 2)] : List Cell).tail,
        inBounds ⟨3, 3, {((1:ℤ), (1:ℤ))}⟩ x ∧
          x ∉ (⟨3, 3, {((1:ℤ), (1:ℤ))}⟩ : Grid).prateleiras :=
  claim_C2 ⟨3, 3, {((1:ℤ), (1:ℤ))}⟩ (0, 0) (2, 2) _ (by decide)

/-- C3: when the requested destination is a shelf, the effective BFS
goal is the first free in-bounds neighbour in the fixed scan order
down, up, right, left; when no neighbour qualifies, `mover_para` speaks
the no-accessible-cell apology, leaves the position unchanged, and runs
no BFS (in the model, `mover_para` short-circuits to `semAcesso`). -/
theorem claim_C3 (g : Grid) (pos destino : Cell) (h : destino ∈ g.prateleiras) :
    ajustarDestino g destino =
      (if livre g (destino.1, destino.2 + 1) then some (destino.1, destino.2 + 1)
       else if livre g (destino.1, destino.2 + -1) then
         some (destino.1, destino.2 + -1)
       else if livre g (destino.1 + 1, destino.2) then
         some (destino.1 + 1, destino.2)
       else if livre g (destino.1 + -1, destino.2) then
         some (destino.1 + -1, destino.2)
       else none) ∧
    (ajustarDestino g destino = none →
      mover_para g pos destino = ⟨Resultado.semAcesso, pos, [Fala.semAcesso]⟩) := by
  constructor
  · unfold ajustarDestino
    rw [if_pos h]
    have hadj : adjacentes destino =
        [(destino.1, destino.2 + 1), (destino.1, destino.2 + -1),
         (destino.1 + 1, destino.2), (destino.1 + -1, destino.2)] := by
      unfold adjacentes moves
      simp
    rw [hadj]
    by_cases h1 : livre g (destino.1, destino.2 + 1)
    · rw [List.find?_cons_of_pos _ (by simpa using h1), if_pos h1]
    · rw [List.find?_cons_of_neg _ (by simpa using h1), if_neg h1]
      by_cases h2 : livre g (destino.1, destino.2 + -1)
      · rw [List.find?_cons_of_pos _ (by simpa using h2), if_pos h2]
      · rw [List.find?_cons_of_neg _ (by simpa using h2), if_neg h2]
        by_cases h3 : livre g (destino.1 + 1, destino.2)
        · rw [List.find?_cons_of_pos _ (by simpa using h3), if_pos h3]
        · rw [List.find?_cons_of_neg _ (by simpa using h3), if_neg h3]
          by_cases h4 : livre g (destino.1 + -1, destino.2)
          · rw [List.find?_cons_of_pos _ (by simpa using h4), if_pos h4]
          · rw [List.find?_cons_of_neg _ (by simpa using h4), if_neg h4]
            rfl
  · intro h0
    simp [mover_para, h0]

/-- C3 witness: the shelf cell (2,2) (product `arroz`) on the real map:
down (2,3) and up (2,1) are shelves, so the effective goal is the right
neighbour (3,2). -/
theorem claim_C3_witness :
    ajustarDestino mapaReal (2, 2) = some (3, 2) ∧
      (2, 2) ∈ mapaReal.prateleiras := by
  have h := claim_C3 mapaReal (0, 0) (2, 2) (by decide)
  refine ⟨?_, by decide⟩
  rw [h.1]
  decide

/-- C4: for every BFS path, the instruction encoding emits exactly
`|path|` instructions — one per consecutive-cell transition, computed
by the fixed world-frame delta table (`+x ↦` right, `−x ↦` left,
`+y ↦` forward, `−y ↦` back) — with the arrival cue last.  (The
encoder is a pure function, so re-encoding the same path trivially
yields the same sequence.) -/
theorem claim_C4 (g : Grid) (s t : Cell) (p : List Cell)
    (h : bfs g s t = some p) :
    (encode p).length = p.length ∧
    (∀ pc ∈ p.zip p.tail,
      direcaoDe pc = instrDelta (pc.2.1 - pc.1.1, pc.2.2 - pc.1.2) ∧
        (direcaoDe pc).isSome = true) ∧
    (encode p).getLast? = some Instr.chegou := by
  obtain ⟨pre, hpre, hrota, _⟩ := bfs_correto g s t h
  have hchain : List.Chain' Adj p := by
    rw [hpre]
    exact rota_chain g s hrota
  have hne : 0 < p.length := by
    rw [hpre]
    simp only [List.length_append, List.length_singleton]
    omega
  have hpairs : ∀ pc ∈ p.zip p.tail, Adj pc.1 pc.2 := chain'_zip hchain
  refine ⟨?_, ?_, ?_⟩
  · unfold encode
    rw [List.length_append,
      filterMap_length_todos direcaoDe (p.zip p.tail)
        (fun pc hpc => (direcao_adj (hpairs pc hpc)).2),
      List.length_zip, List.length_tail]
    simp only [List.length_singleton]
    omega
  · intro pc hpc
    exact direcao_adj (hpairs pc hpc)
  · unfold encode
    simp

/-- C4 witness: the 5-cell path on the 3×3 grid with a shelf at (1,1)
encodes to 5 instructions ending in the arrival cue. -/
theorem claim_C4_witness :
    (encode [((0:ℤ), (0:ℤ)), (0, 1), (0, 2), (1, 2), (2, 2)]).length =
        ([((0:ℤ), (0:ℤ)), (0, 1), (0, 2), (1, 2), (2, 2)] : List Cell).length ∧
      (∀ pc ∈ ([((0:ℤ), (0:ℤ)), (0, 1), (0, 2), (1, 2), (2, 2)] : List Cell).zip
          ([((0:ℤ), (0:ℤ)), (0, 1), (0, 2), (1, 2), (2, 2)] : List Cell).tail,
        direcaoDe pc = instrDelta (pc.2.1 - pc.1.1, pc.2.2 - pc.1.2) ∧
          (direcaoDe pc).isSome = true) ∧
      (encode [((0:ℤ), (0:ℤ)), (0, 1), (0, 2), (1, 2), (2, 2)]).getLast? =
        some Instr.chegou :=
  claim_C4 ⟨3, 3, {((1:ℤ), (1:ℤ))}⟩ (0, 0) (2, 2) _ (by decide)

/-- C5 counterexample: on an empty recognized phrase the loop iteration
performs no announcement at all (`silencio` — the Python code only
speaks the retry cue when `comando` is nonempty), contradicting the
claim that a retry/not-found cue is announced in that case. -/
theorem claim_C5_counterexample :
    acaoIteracao produtosReais [] = Acao.silencio ∧
      Acao.silencio ≠ Acao.aviso := by
  constructor
  · decide
  · decide

/-- C5 as amended: an iteration whose phrase contains neither the exit
word nor any configured product name announces the retry cue and loops
exactly when the phrase is nonempty, loops silently when it is empty,
and never enters guidance in either case. -/
theorem claim_C5 (produtos : List (List Char × Cell)) (comando : List Char)
    (hs : contemSub sairLista comando = false)
    (hp : ∀ pr ∈ produtos, contemSub pr.1 comando = false) :
    acaoIteracao produtos comando =
      (if comando.isEmpty then Acao.silencio else Acao.aviso) ∧
    ∀ nome alvo, acaoIteracao produtos comando ≠ Acao.guiar nome alvo := by
  have hfind : produtos.find? (fun pr => contemSub pr.1 comando) = none :=
    List.find?_eq_none.mpr (fun pr hpr => by simp [hp pr hpr])
  constructor
  · simp [acaoIteracao, hs, hfind]
  · intro nome alvo
    simp only [acaoIteracao, hs, hfind]
    by_cases hc : comando.isEmpty <;> simp [hc]

/-- C5 witness: the phrase `banana` matches no configured product, so
the iteration announces the retry cue; guidance is never entered. -/
theorem claim_C5_witness :
    acaoIteracao produtosReais ("banana".toList) =
      (if ("banana".toList).isEmpty then Acao.silencio else Acao.aviso) ∧
    ∀ nome alvo,
      acaoIteracao produtosReais ("banana".toList) ≠ Acao.guiar nome alvo :=
  claim_C5 produtosReais ("banana".toList) (by decide) (by decide)

/-- C6 counterexample: with a playback-busy signal stuck at `true`, the
polling loop of `sintetizar_voz` is still running after 101 polls
(more than the claimed 10-second cap at one poll per 0.1 s) — the code
has no bound at all on the wait. -/
theorem claim_C6_counterexample :
    esperaReproducao (fun _ => true) 0 101 = none := by
  decide

/-- C6 as amended: the playback wait is unbounded — it is still polling
after `fuel` polls exactly when every one of those polls reported busy,
so it terminates only when the busy signal eventually clears, and a
stuck busy signal suspends the speak call forever. -/
theorem claim_C6 (ocupado : ℕ → Bool) (t fuel : ℕ) :
    esperaReproducao ocupado t fuel = none ↔
      ∀ u, u < fuel → ocupado (t + u) = true := by
  induction fuel generalizing t with
  | zero => simp [esperaReproducao]
  | succ fuel ih =>
    rw [esperaReproducao]
    by_cases hb : ocupado t = true
    · rw [if_pos hb, ih (t + 1)]
      constructor
      · intro h u hu
        cases u with
        | zero => simpa using hb
        | succ u =>
          have h2 := h u (by omega)
          have e : t + (u + 1) = t + 1 + u := by omega
          rw [e]
          exact h2
      · intro h u hu
        have h2 := h (u + 1) (by omega)
        have e : t + (u + 1) = t + 1 + u := by omega
        rw [e] at h2
        exact h2
    · rw [if_neg hb]
      constructor
      · intro h
        exact absurd h (by simp)
      · intro h
        exact absurd (h 0 (by omega)) (by simpa using hb)

/-- C7 counterexample: with a transient failure on the first deletion
attempt that would clear on a retry, `_remover_arquivo_seguro` still
makes exactly one attempt and abandons the file, while the 3-retry
policy the claim describes would have deleted it. -/
theorem claim_C7_counterexample :
    (removerArquivoSeguro true (fun k => decide (k = 0))).removido = false ∧
    (removerArquivoSeguro true (fun k => decide (k = 0))).tentativas = 1 ∧
    conseguiriaComTentativas (fun k => decide (k = 0)) 3 = true := by
  refine ⟨?_, ?_, ?_⟩ <;> decide

/-- C7 as amended: deletion is attempted at most once (after the grace
delay); on failure the artifact is logged and abandoned while staying
tracked; and the `on_closing` shutdown sweep removes every tracked
artifact still on disk. -/
theorem claim_C7 (existe : Bool) (falha : ℕ → Bool) (disco temp : Finset ℕ)
    (a : ℕ) (ha : a ∈ temp) :
    (removerArquivoSeguro existe falha).tentativas ≤ 1 ∧
    (existe = true → falha 0 = true →
      (removerArquivoSeguro existe falha).removido = false ∧
      (removerArquivoSeguro existe falha).rastreado = true) ∧
    a ∉ varreduraFechamento disco temp := by
  refine ⟨?_, ?_, ?_⟩
  · unfold removerArquivoSeguro
    split_ifs <;> simp
  · intro he hf
    simp [removerArquivoSeguro, he, hf]
  · unfold varreduraFechamento
    simp [Finset.mem_sdiff, ha]

/-- C7 witness: a tracked artifact with a failing single attempt. -/
theorem claim_C7_witness :
    (removerArquivoSeguro true (fun _ => true)).tentativas ≤ 1 ∧
    (true = true → (fun _ : ℕ => true) 0 = true →
      (removerArquivoSeguro true (fun _ => true)).removido = false ∧
      (removerArquivoSeguro true (fun _ => true)).rastreado = true) ∧
    (0 : ℕ) ∉ varreduraFechamento {0} {0} :=
  claim_C7 true (fun _ => true) {0} {0} 0 (by decide)

/-- C8: when the effective goal exists but the BFS exhausts without
reaching it, `mover_para` reports the no-path outcome, speaks exactly
the apology cue, and leaves the user's position unchanged (the loop
then returns to listening). -/
theorem claim_C8 (g : Grid) (pos destino fd : Cell)
    (hadj : ajustarDestino g destino = some fd) (hbfs : bfs g pos fd = none) :
    mover_para g pos destino =
      ⟨Resultado.semCaminho, pos, [Fala.semCaminho]⟩ := by
  simp [mover_para, hadj, hbfs]

/-- C8 witness: on a 3×3 grid whose corner (2,2) is walled off by
shelves at (1,2) and (2,1), guidance from (0,0) fails with the apology
and the position stays (0,0) (spec end-to-end scenario 3). -/
theorem claim_C8_witness :
    mover_para ⟨3, 3, {((1:ℤ), (2:ℤ)), ((2:ℤ), (1:ℤ))}⟩ (0, 0) (2, 2) =
      ⟨Resultado.semCaminho, (0, 0), [Fala.semCaminho]⟩ :=
  claim_C8 ⟨3, 3, {((1:ℤ), (2:ℤ)), ((2:ℤ), (1:ℤ))}⟩ (0, 0) (2, 2) (2, 2)
    (by decide) (by decide)

/-- C9: in every reachable state of the audio-lock semantics — including
the `except` degrade path by which a call whose synthesis or playback
raises leaves the locked block without ever playing — at most one
`sintetizar_voz` call is in the Playing phase, and the playback history
is an order-preserving subsequence of the invocation history: the cues
that are heard are heard in the order `speak` was invoked, never
interleaved or overlapping, because the whole synthesize–play–delete
sequence runs under the single `audio_lock`. -/
theorem claim_C9 {n : ℕ} (s : EstadoAudio n) (h : Alcancavel s) :
    (∀ i j : Fin n, s.fase i = FaseTarefa.tocando →
      s.fase j = FaseTarefa.tocando → i = j) ∧
    List.Sublist s.tocadas s.invocadas := by
  have inv := invAudio_alcancavel h
  constructor
  · intro i j hi hj
    have h1 := (inv.donoSeg i).mp (Or.inr (Or.inl hi))
    have h2 := (inv.donoSeg j).mp (Or.inr (Or.inl hj))
    rw [h1] at h2
    exact Option.some.inj h2
  · rw [inv.ordem]
    exact inv.tocSub.trans (List.sublist_append_left s.adquiridas s.fila)

/-- C9 witness: the initial all-idle state with two potential calls. -/
theorem claim_C9_witness :
    (∀ i j : Fin 2, (estadoInicial 2).fase i = FaseTarefa.tocando →
      (estadoInicial 2).fase j = FaseTarefa.tocando → i = j) ∧
    List.Sublist (estadoInicial 2).tocadas (estadoInicial 2).invocadas :=
  claim_C9 (estadoInicial 2) Alcancavel.inicial

/-- C10: the exit-word check runs before product matching, so any
phrase containing `sair` — even one that also names a configured
product — exits the loop and never starts guidance. -/
theorem claim_C10 (produtos : List (List Char × Cell)) (comando : List Char)
    (h : contemSub sairLista comando = true) :
    acaoIteracao produtos comando = Acao.sair ∧
    ∀ nome alvo, acaoIteracao produtos comando ≠ Acao.guiar nome alvo := by
  constructor
  · simp [acaoIteracao, h]
  · intro nome alvo
    simp [acaoIteracao, h]

/-- C10 witness: a phrase containing both the product `arroz` and the
exit word `sair` exits rather than guiding. -/
theorem claim_C10_witness :
    acaoIteracao produtosReais ("quero arroz e depois sair".toList) = Acao.sair ∧
    (∀ nome alvo, acaoIteracao produtosReais ("quero arroz e depois sair".toList) ≠
      Acao.guiar nome alvo) ∧
    contemSub ("arroz".toList) ("quero arroz e depois sair".toList) = true := by
  have h := claim_C10 produtosReais ("quero arroz e depois sair".toList) (by decide)
  exact ⟨h.1, h.2, by decide⟩

end AcessoPlus
